import Mathlib

/-!
Verification of the wombat pipeline glue code (src/wombat.py) against its
natural-language specification.

Python strings are modelled as `List Char` so that sample identifiers
containing path-separator characters can be reasoned about directly; Python
floats arising from division are modelled as `ℚ`; fallible operations
(dictionary lookup that can raise KeyError) return `Option`.
-/

namespace Wombat

/-- Python strings are modelled as lists of characters. -/
abbrev Str := List Char

/-- Conversion from Lean string literals to the character-list model. -/
def chars (s : String) : Str := s.data

/-! ## Artifact layout (wombat.py lines 415-428, 456-462, 490-491, 523, 551-582)

The per-run directory layout is pure string concatenation in the source:
each stage has a fixed directory under the output root, and per-sample
artifacts are named by concatenating the sample id with fixed suffixes. -/

/-- The four per-sample read artifacts written by the trimming stage
(`trimmomatic_call` outputs, wombat.py lines 456-459). -/
inductive TrimRole
  | r1Paired
  | r1Unpaired
  | r2Paired
  | r2Unpaired
deriving DecidableEq

/-- Filename suffix appended to the sample id for each trimming output
(wombat.py lines 456-459). -/
def trimSuffix : TrimRole → Str
  | .r1Paired => chars "_R1_paired.fastq"
  | .r1Unpaired => chars "_R1_unpaired.fastq"
  | .r2Paired => chars "_R2_paired.fastq"
  | .r2Unpaired => chars "_R2_unpaired.fastq"

/-- An artifact of the run, addressed by (stage, sample, role); the four
report artifacts are cross-sample and carry no sample id.  The roles are
the ones of the specification, at the concrete paths the source builds. -/
inductive Artifact
  | trim (role : TrimRole) (sample : Str)
  | contigsRaw (sample : Str)
  | contigsCurated (sample : Str)
  | annotGff (sample : Str)
  | typingReport
  | virulenceReport
  | resistanceReport
  | homologyReport
deriving DecidableEq

/-- The stage directory name directly under the output root that holds the
artifact (wombat.py lines 416-428).  The annotator choice (prokka vs dfast)
is fixed per run by configuration (wombat.py lines 443-446). -/
def stageDir (useDfast : Bool) : Artifact → Str
  | .trim _ _ => chars "Trimmomatic_filtering1"
  | .contigsRaw _ => chars "SPAdes_assembly"
  | .contigsCurated _ => chars "Contigs_renamed_shorten"
  | .annotGff _ => if useDfast then chars "Dfast_annotation" else chars "Prokka_annotation"
  | .typingReport => chars "MLST"
  | .virulenceReport => chars "ABRicateVirulenceGenes"
  | .resistanceReport => chars "ABRicateAntibioticResistanceGenes"
  | .homologyReport => chars "ABRicateVirulenceGenes"

/-- The artifact path below its stage directory:
trimming outputs (lines 456-459), raw contigs (line 490), curated contigs
(line 491), annotation gff (line 523), MLST report (lines 190, 551-553),
ABRicate reports (lines 216, 557-567), blast report (line 401 with
blast_proteins_dir from line 427). -/
def tailPath : Artifact → Str
  | .trim r s => s ++ trimSuffix r
  | .contigsRaw s => s ++ chars "/contigs.fasta"
  | .contigsCurated s => s ++ chars "_contigs.fasta"
  | .annotGff s => s ++ '/' :: (s ++ chars ".gff")
  | .typingReport => chars "MLST.txt"
  | .virulenceReport => chars "SampleVirulenceGenes.tab"
  | .resistanceReport => chars "SampleAntibioticResistanceGenes.tab"
  | .homologyReport => chars "BLAST_custom_proteins/BLASToutput_VF_custom_edited.txt"

/-- The full artifact path: output root, "/", stage directory, "/", tail.
This is exactly the string the source concatenates, e.g.
`output_folder+"/Trimmomatic_filtering1"+"/"+sample+"_R1_paired.fastq"`. -/
def path_for (useDfast : Bool) (root : Str) (a : Artifact) : Str :=
  root ++ '/' :: (stageDir useDfast a ++ '/' :: tailPath a)

/-! ## Contig curation (`contigs_trim_and_rename`, wombat.py lines 144-159) -/

/-- Python `str.split(sep)` for a one-character separator: always returns
one more piece than there are separator occurrences; `"".split(sep) = [""]`. -/
def splitOnChar (sep : Char) : Str → List Str
  | [] => [[]]
  | c :: cs =>
    if c = sep then [] :: splitOnChar sep cs
    else (c :: (splitOnChar sep cs).headI) :: (splitOnChar sep cs).tail

/-- Python `sep.join(pieces)` for a one-character separator. -/
def joinSep (sep : Char) : List Str → Str
  | [] => []
  | [p] => p
  | p :: q :: ps => p ++ sep :: joinSep sep (q :: ps)

/-- The identifier rewrite of wombat.py line 156:
`record.id = "C_"+"_".join(record.id.split("_")[1:4])`. -/
def rename_contig_id (i : Str) : Str :=
  chars "C_" ++ joinSep '_' (((splitOnChar '_' i).drop 1).take 3)

/-- A FASTA record: identifier, description, residue sequence. -/
structure FastaRecord where
  id : Str
  description : Str
  seq : Str
deriving DecidableEq

/-- The per-record rewrite of wombat.py lines 156-157: identifier renamed,
description cleared, sequence untouched. -/
def curate (r : FastaRecord) : FastaRecord :=
  ⟨rename_contig_id r.id, [], r.seq⟩

/-- `contigs_trim_and_rename` (wombat.py lines 144-159) at the record level:
keep exactly the records with `len(record.seq) > min_len`, rewriting each
kept record, in input order; the record list is what `SeqIO.write` stores. -/
def contigs_trim_and_rename (records : List FastaRecord) (min_len : Nat) : List FastaRecord :=
  records.filterMap fun r => if min_len < r.seq.length then some (curate r) else none

/-! ## Filtered-read reclassification (`refactor_prinseq_output`, wombat.py lines 98-124) -/

/-- Result of a `refactor_prinseq_output` run: files removed by `os.remove`,
files moved by `shutil.move` with their destination directory, and the two
optional role entries of the returned dictionary. -/
structure RefactorResult where
  deleted : List Str
  moved : List (Str × Str)
  r1 : Option Str
  r2 : Option Str
deriving DecidableEq

/-- The filename tag tested by `filename.startswith(sample+"_R1")`
(wombat.py line 120). -/
def r1Tag (sample : Str) : Str := sample ++ chars "_R1"

/-- The filename tag tested by `filename.startswith(sample+"_R2")`
(wombat.py line 122). -/
def r2Tag (sample : Str) : Str := sample ++ chars "_R2"

/-- Processing of one walked filename (wombat.py lines 114-123): files whose
name contains "prinseq" and "singletons" are deleted; other "prinseq" files
are moved to `output_dir+"/"+sample` and recorded under R1 or R2 when their
name starts with `sample+"_R1"` resp. (elif) `sample+"_R2"`. -/
def refactor_step (output_dir sample : Str) (acc : RefactorResult) (f : Str) : RefactorResult :=
  if chars "prinseq" <:+: f then
    if chars "singletons" <:+: f then
      ⟨acc.deleted ++ [f], acc.moved, acc.r1, acc.r2⟩
    else
      ⟨acc.deleted,
       acc.moved ++ [(f, output_dir ++ '/' :: sample)],
       if r1Tag sample <+: f then some f else acc.r1,
       if r1Tag sample <+: f then acc.r2
       else if r2Tag sample <+: f then some f else acc.r2⟩
  else acc

/-- `refactor_prinseq_output` (wombat.py lines 98-124) over the walked file
names in walk order, starting from the empty dictionary. -/
def refactor_prinseq_output (files : List Str) (output_dir sample : Str) : RefactorResult :=
  files.foldl (refactor_step output_dir sample) ⟨[], [], none, none⟩

/-- Files deleted by the walk: name contains both markers (wombat.py 114-116). -/
def isSingletonFile (f : Str) : Prop :=
  chars "prinseq" <:+: f ∧ chars "singletons" <:+: f

/-- Files moved by the walk: name contains "prinseq" but not "singletons"
(wombat.py lines 114-119). -/
def isMovedFile (f : Str) : Prop :=
  chars "prinseq" <:+: f ∧ ¬ chars "singletons" <:+: f

instance (f : Str) : Decidable (isSingletonFile f) := by
  unfold isSingletonFile; infer_instance

instance (f : Str) : Decidable (isMovedFile f) := by
  unfold isMovedFile; infer_instance

/-! ## Blast post-processing (`blast_postprocessing`, wombat.py lines 364-401) -/

/-- One data row of the tab-separated tblastn output read at wombat.py
line 375, columns as produced by `blast_call` (lines 261-272). -/
structure BlastRow where
  qid : Str
  sid : Str
  pident : ℚ
  alnLength : ℤ
  mismatches : ℤ
  gapOpens : ℤ
  qstart : ℤ
  qend : ℤ
  sstart : ℤ
  ssend : ℤ
  evalue : ℚ
  score : ℚ
  sseq : Str
deriving DecidableEq

/-- A row of the enriched table, with the two derived columns inserted
after "subject id" (pandas `insert(2, ...)`, `insert(3, ...)`,
wombat.py lines 381-382). -/
structure EnrichedRow where
  qid : Str
  sid : Str
  queryLength : ℕ
  proteinCover : ℚ
  pident : ℚ
  alnLength : ℤ
  mismatches : ℤ
  gapOpens : ℤ
  qstart : ℤ
  qend : ℤ
  sstart : ℤ
  ssend : ℤ
  evalue : ℚ
  score : ℚ
  sseq : Str
deriving DecidableEq

/-- Projection of an enriched row back to its original columns. -/
def EnrichedRow.core (e : EnrichedRow) : BlastRow :=
  ⟨e.qid, e.sid, e.pident, e.alnLength, e.mismatches, e.gapOpens,
   e.qstart, e.qend, e.sstart, e.ssend, e.evalue, e.score, e.sseq⟩

/-- Enrichment of one surviving row (wombat.py lines 390-399): the query
length is `len(proteins_database[query_id][1])` — a dictionary access that
raises KeyError when the id is absent, modelled as `none` — and the
coverage is `(query_end - query_start + 1) / query_length * 100`. -/
def enrich (db : Str → Option Nat) (r : BlastRow) : Option EnrichedRow :=
  (db r.qid).map fun ql =>
    ⟨r.qid, r.sid, ql, ((r.qend : ℚ) - (r.qstart : ℚ) + 1) / (ql : ℚ) * 100,
     r.pident, r.alnLength, r.mismatches, r.gapOpens,
     r.qstart, r.qend, r.sstart, r.ssend, r.evalue, r.score, r.sseq⟩

/-- The enrichment loop of wombat.py lines 390-399 over the surviving rows:
it stops at the first KeyError, in which case nothing is written. -/
def enrichAll (db : Str → Option Nat) : List BlastRow → Option (List EnrichedRow)
  | [] => some []
  | r :: rs => (enrich db r).bind fun e => (enrichAll db rs).map fun es => e :: es

/-- The header row written by `blast_call` (wombat.py lines 269-270). -/
def blast_headers : List String :=
  ["query id", "subject id", "% identity", "alignment length", "mismatches",
   "gap opens", "query start", "query end", "subject start", "subject end",
   "evalue", "score", "aligned part of subject sequence"]

/-- Columns of the enriched table after the two pandas inserts at positions
2 and 3 (wombat.py lines 381-382). -/
def edited_headers : List String :=
  (blast_headers.insertIdx 2 "query length").insertIdx 3 "protein cover %"

/-- The file written by `blast_postprocessing`: its path (wombat.py
line 401), its header row and its data rows. -/
structure BlastOutput where
  path : Str
  headers : List String
  rows : List EnrichedRow
deriving DecidableEq

/-- `blast_postprocessing` (wombat.py lines 364-401): read rows, drop every
row with `% identity` not strictly above 50 (line 378), then compute the two
derived columns for the surviving rows (lines 381-399) and write the result
to the fixed filename (line 401); a KeyError aborts before anything is
written, modelled as `none`. -/
def blast_postprocessing (rows : List BlastRow) (db : Str → Option Nat)
    (output_folder : Str) : Option BlastOutput :=
  (enrichAll db (rows.filter fun r => decide (50 < r.pident))).map fun es =>
    ⟨output_folder ++ chars "/BLASToutput_VF_custom_edited.txt", edited_headers, es⟩

/-! ## Per-sample orchestrator chain (wombat.py lines 449-523) -/

/-- The six per-sample stages of the claimed chain, in source order:
trimmomatic (line 452), prinseq (line 466), spades (line 484),
contigs_trim_and_rename (line 490), quast (line 500),
prokka or dfast (lines 505-520). -/
inductive Stage
  | trimming
  | filtering
  | assembly
  | curation
  | statistics
  | annotate
deriving DecidableEq

/-- The run environment of one sample's chain: the exit code each external
tool would return when invoked, whether the prinseq role map ends up holding
R1 and R2, and whether the contigs file at line 490 is readable. -/
structure SampleEnv where
  exitCode : Stage → Int
  hasR1 : Bool
  hasR2 : Bool
  curationOk : Bool

/-- What one iteration of the sample loop did: which stages started
executing, and whether the iteration ran to completion (as opposed to the
run aborting with an uncaught exception). -/
structure ChainResult where
  executed : List Stage
  completed : Bool
deriving DecidableEq

/-- The body of the sample loop (wombat.py lines 449-523).  Every
`*_call` helper returns the tool's exit status, and the loop body discards
each of these return values: no exit code is ever compared with 0.  The
only aborts are the dictionary accesses `prinseq_files["R1"]` /
`prinseq_files["R2"]` (lines 484-485, KeyError) and a curation that cannot
read its input (line 490), both of which raise and end the whole run. -/
def sampleChain (env : SampleEnv) : ChainResult :=
  -- line 452: trimmomatic_call(...) — status produced, never inspected
  let _c₁ := env.exitCode .trimming
  -- line 466: prinseq_call(...) — status produced, never inspected
  let _c₂ := env.exitCode .filtering
  -- line 477: prinseq_files = refactor_prinseq_output(...)
  -- lines 484-485: prinseq_files["R1"], prinseq_files["R2"]
  if env.hasR1 && env.hasR2 then
    -- line 484: spades_call(...) — status produced, never inspected
    let _c₃ := env.exitCode .assembly
    -- line 490: contigs_trim_and_rename(...)
    if env.curationOk then
      -- line 500: quast_call(...) — status produced, never inspected
      let _c₄ := env.exitCode .statistics
      -- lines 509/517: dfast_call / prokka_call — status produced, never inspected
      let _c₅ := env.exitCode .annotate
      ⟨[.trimming, .filtering, .assembly, .curation, .statistics, .annotate], true⟩
    else
      ⟨[.trimming, .filtering, .assembly, .curation], false⟩
  else
    ⟨[.trimming, .filtering], false⟩

/-! ## Theorems -/

/-! ### Path layout (C2) -/

theorem segment_split {n₁ n₂ t₁ t₂ : Str} (h₁ : '/' ∉ n₁) (h₂ : '/' ∉ n₂)
    (h : n₁ ++ '/' :: t₁ = n₂ ++ '/' :: t₂) : n₁ = n₂ ∧ t₁ = t₂ := by
  induction n₁ generalizing n₂ with
  | nil =>
    cases n₂ with
    | nil => simpa using h
    | cons d n₂ =>
      rw [List.nil_append, List.cons_append, List.cons.injEq] at h
      exact absurd h.1 (by simp at h₂; exact h₂.1)
  | cons c n₁ ih =>
    cases n₂ with
    | nil =>
      rw [List.nil_append, List.cons_append, List.cons.injEq] at h
      exact absurd h.1.symm (by simp at h₁; exact h₁.1)
    | cons d n₂ =>
      rw [List.cons_append, List.cons_append, List.cons.injEq] at h
      have h₁' : '/' ∉ n₁ := fun hm => h₁ (List.mem_cons_of_mem _ hm)
      have h₂' : '/' ∉ n₂ := fun hm => h₂ (List.mem_cons_of_mem _ hm)
      obtain ⟨e₁, e₂⟩ := ih h₁' h₂' h.2
      exact ⟨by rw [h.1, e₁], e₂⟩

theorem clash_of_ne_suffix {s₁ s₂ t₁ t₂ : Str} (h : s₁ ++ t₁ = s₂ ++ t₂)
    (h₁ : ¬ t₁ <:+ t₂) (h₂ : ¬ t₂ <:+ t₁) : False := by
  have hs₁ : t₁ <:+ s₂ ++ t₂ := h ▸ List.suffix_append s₁ t₁
  have hs₂ : t₂ <:+ s₂ ++ t₂ := List.suffix_append s₂ t₂
  rcases List.suffix_or_suffix_of_suffix hs₁ hs₂ with h' | h'
  · exact h₁ h'
  · exact h₂ h'

theorem gff_tail_inj {s₁ s₂ : Str}
    (h : s₁ ++ '/' :: (s₁ ++ chars ".gff") = s₂ ++ '/' :: (s₂ ++ chars ".gff")) :
    s₁ = s₂ := by
  have hlen : s₁.length = s₂.length := by
    have hl := congrArg List.length h
    simp only [List.length_append, List.length_cons] at hl
    omega
  exact (List.append_inj h hlen).1

theorem stageDir_no_slash (b : Bool) (a : Artifact) : '/' ∉ stageDir b a := by
  cases a <;> cases b <;> simp only [stageDir, chars, Bool.false_eq_true,
    if_true, if_false, reduceIte] <;> decide

/-- Claim C2: within one run root (and one configured annotator), the
artifact-path mapping is a pure function of the (stage, sample, role)
triple, and it is collision-free: two distinct triples always map to
distinct path strings, for every sample identifier — including identifiers
that contain the path-separator character. -/
theorem C2_path_for_pure_and_injective (useDfast : Bool) (root : Str) :
    (∀ a₁ a₂ : Artifact, a₁ = a₂ → path_for useDfast root a₁ = path_for useDfast root a₂) ∧
    (∀ a₁ a₂ : Artifact, path_for useDfast root a₁ = path_for useDfast root a₂ → a₁ = a₂) := by
  refine ⟨fun a₁ a₂ h => by rw [h], fun a₁ a₂ h => ?_⟩
  have h' := List.append_cancel_left h
  rw [List.cons.injEq] at h'
  obtain ⟨hsd, ht⟩ :=
    segment_split (stageDir_no_slash useDfast a₁) (stageDir_no_slash useDfast a₂) h'.2
  clear h h'
  cases useDfast <;> cases a₁ <;> cases a₂ <;>
      simp only [stageDir, chars, Bool.false_eq_true, if_true, if_false, reduceIte] at hsd <;>
      simp only [tailPath] at ht <;>
      first
      | rfl
      | exact absurd hsd (by decide)
      | exact absurd ht (by decide)
      | exact congrArg _ (List.append_inj' ht rfl).1
      | exact congrArg _ (gff_tail_inj ht)
      | (rename_i r₁ s₁ r₂ s₂
         cases r₁ <;> cases r₂ <;> simp only [trimSuffix] at ht <;>
           first
           | exact congrArg (Artifact.trim _) (List.append_inj' ht rfl).1
           | exact (clash_of_ne_suffix ht (by decide) (by decide)).elim)

/-- Witness for C2: the theorem applied at a concrete pair of equal paths. -/
theorem C2_path_for_pure_and_injective_witness :
    Artifact.typingReport = Artifact.typingReport :=
  (C2_path_for_pure_and_injective false (chars "OUT")).2 _ _ rfl

/-! ### Contig curation (C3, C8) -/

theorem splitOnChar_cons (sep c : Char) (cs : Str) :
    splitOnChar sep (c :: cs) =
      if c = sep then [] :: splitOnChar sep cs
      else (c :: (splitOnChar sep cs).headI) :: (splitOnChar sep cs).tail := rfl

theorem splitOnChar_ne_nil (sep : Char) (l : Str) : splitOnChar sep l ≠ [] := by
  cases l with
  | nil => simp [splitOnChar]
  | cons c cs => by_cases hc : c = sep <;> simp [splitOnChar, hc]

theorem sep_not_mem_of_mem_splitOnChar {sep : Char} {l p : Str}
    (hp : p ∈ splitOnChar sep l) : sep ∉ p := by
  induction l generalizing p with
  | nil =>
    simp only [splitOnChar, List.mem_singleton] at hp
    subst hp; simp
  | cons c cs ih =>
    cases h : splitOnChar sep cs with
    | nil => exact (splitOnChar_ne_nil sep cs h).elim
    | cons q qs =>
      simp only [splitOnChar, h, List.headI_cons, List.tail_cons] at hp
      have hq : sep ∉ q := ih (h ▸ List.mem_cons_self q qs)
      have hqs : ∀ x ∈ qs, sep ∉ x := fun x hx => ih (h ▸ List.mem_cons_of_mem q hx)
      by_cases hc : c = sep
      · rw [if_pos hc] at hp
        rcases List.mem_cons.mp hp with hp | hp
        · subst hp; simp
        · rcases List.mem_cons.mp hp with hp | hp
          · subst hp; exact hq
          · exact hqs p hp
      · rw [if_neg hc] at hp
        rcases List.mem_cons.mp hp with hp | hp
        · subst hp
          intro hm
          rcases List.mem_cons.mp hm with hm | hm
          · exact hc hm.symm
          · exact hq hm
        · exact hqs p hp

theorem splitOnChar_of_not_mem {sep : Char} {p : Str} (h : sep ∉ p) :
    splitOnChar sep p = [p] := by
  induction p with
  | nil => rfl
  | cons c cs ih =>
    have hc : c ≠ sep := fun e => h (e ▸ List.mem_cons_self c cs)
    have hcs : sep ∉ cs := fun hm => h (List.mem_cons_of_mem c hm)
    simp only [splitOnChar, ih hcs, if_neg hc, List.headI_cons, List.tail_cons]

theorem splitOnChar_append {sep : Char} {p rest : Str} (h : sep ∉ p) :
    splitOnChar sep (p ++ sep :: rest) = p :: splitOnChar sep rest := by
  induction p with
  | nil =>
    rw [List.nil_append, splitOnChar_cons, if_pos rfl]
  | cons c cs ih =>
    have hc : c ≠ sep := fun e => h (e ▸ List.mem_cons_self c cs)
    have hcs : sep ∉ cs := fun hm => h (List.mem_cons_of_mem c hm)
    rw [List.cons_append, splitOnChar_cons, if_neg hc, ih hcs, List.headI_cons,
      List.tail_cons]

theorem splitOnChar_joinSep {sep : Char} {ps : List Str} (hps : ∀ p ∈ ps, sep ∉ p)
    (hne : ps ≠ []) : splitOnChar sep (joinSep sep ps) = ps := by
  induction ps with
  | nil => exact (hne rfl).elim
  | cons p ps ih =>
    cases ps with
    | nil =>
      simp only [joinSep]
      exact splitOnChar_of_not_mem (hps p (List.mem_cons_self p []))
    | cons q qs =>
      simp only [joinSep]
      rw [splitOnChar_append (hps p (List.mem_cons_self p _))]
      rw [ih (fun x hx => hps x (List.mem_cons_of_mem p hx)) (by simp)]

theorem rename_fixed {m : List Str} (hmem : ∀ p ∈ m, '_' ∉ p) (hlen : m.length ≤ 3) :
    rename_contig_id (chars "C_" ++ joinSep '_' m) = chars "C_" ++ joinSep '_' m := by
  cases m with
  | nil => rfl
  | cons p ps =>
    have h1 : chars "C_" ++ joinSep '_' (p :: ps) = joinSep '_' (chars "C" :: p :: ps) := rfl
    rw [h1]
    unfold rename_contig_id
    rw [splitOnChar_joinSep ?hfree (by simp)]
    case hfree =>
      intro x hx
      rcases List.mem_cons.mp hx with hx | hx
      · subst hx; decide
      · exact hmem x hx
    rw [List.drop_succ_cons, List.drop_zero, List.take_of_length_le hlen]
    exact h1.symm

theorem rename_contig_id_idem (i : Str) :
    rename_contig_id (rename_contig_id i) = rename_contig_id i := by
  have hmem : ∀ p ∈ ((splitOnChar '_' i).drop 1).take 3, '_' ∉ p := fun p hp =>
    sep_not_mem_of_mem_splitOnChar (List.mem_of_mem_drop (List.mem_of_mem_take hp))
  have hlen : (((splitOnChar '_' i).drop 1).take 3).length ≤ 3 := by
    rw [List.length_take]; exact min_le_left _ _
  exact rename_fixed hmem hlen

theorem curate_seq (r : FastaRecord) : (curate r).seq = r.seq := rfl

theorem curate_curate (r : FastaRecord) : curate (curate r) = curate r := by
  simp only [curate, rename_contig_id_idem]

/-- Claim C3: curation writes exactly the input records whose sequence is
strictly longer than the threshold — none dropped, none added, so the
output count is at most the input count — each with its identifier
rewritten to the marker "C" joined by "_" to fields 1-3 of the original
identifier split on "_", and its description cleared; on the identifier
"NODE_3_length_5000_cov_12.3" the rewrite yields "C_3_length_5000". -/
theorem C3_curation_filter_and_rename :
    (∀ (records : List FastaRecord) (min_len : Nat) (r : FastaRecord),
        r ∈ contigs_trim_and_rename records min_len ↔
          ∃ r₀ ∈ records, min_len < r₀.seq.length ∧ r = curate r₀) ∧
    (∀ (records : List FastaRecord) (min_len : Nat),
        (contigs_trim_and_rename records min_len).length ≤ records.length) ∧
    rename_contig_id (chars "NODE_3_length_5000_cov_12.3") = chars "C_3_length_5000" ∧
    ∀ r : FastaRecord, (curate r).description = [] := by
  refine ⟨?_, ?_, by decide, fun r => rfl⟩
  · intro records n r
    simp only [contigs_trim_and_rename, List.mem_filterMap]
    constructor
    · rintro ⟨a, ha, hfa⟩
      by_cases h : n < a.seq.length
      · rw [if_pos h] at hfa
        exact ⟨a, ha, h, (Option.some_inj.mp hfa).symm⟩
      · rw [if_neg h] at hfa; cases hfa
    · rintro ⟨a, ha, h, rfl⟩
      exact ⟨a, ha, by rw [if_pos h]⟩
  · intro records n
    exact List.length_filterMap_le _ _

/-- Witness for C3: the characterization applied to a one-record input. -/
theorem C3_curation_filter_and_rename_witness :
    (⟨chars "C_3_length_5000", [], chars "AAAA"⟩ : FastaRecord) ∈
      contigs_trim_and_rename
        [⟨chars "NODE_3_length_5000_cov_12.3", chars "descr", chars "AAAA"⟩] 3 :=
  (C3_curation_filter_and_rename.1 _ 3 _).mpr
    ⟨_, List.mem_singleton_self _, by decide, by decide⟩

/-- Claim C8: curation is idempotent — re-running it on its own output with
the same threshold (and the same marker "C") reproduces that output
record-for-record: every record survives again and the second rewrite
changes neither identifier nor description. -/
theorem C8_curation_idempotent (records : List FastaRecord) (min_len : Nat) :
    contigs_trim_and_rename (contigs_trim_and_rename records min_len) min_len =
      contigs_trim_and_rename records min_len := by
  induction records with
  | nil => rfl
  | cons r rs ih =>
    by_cases h : min_len < r.seq.length
    · have h₁ : contigs_trim_and_rename (r :: rs) min_len =
          curate r :: contigs_trim_and_rename rs min_len := by
        simp only [contigs_trim_and_rename, List.filterMap_cons, if_pos h]
      have h₂ : contigs_trim_and_rename (curate r :: contigs_trim_and_rename rs min_len)
            min_len =
          curate (curate r) ::
            contigs_trim_and_rename (contigs_trim_and_rename rs min_len) min_len := by
        simp only [contigs_trim_and_rename, List.filterMap_cons, curate_seq, if_pos h]
      rw [h₁, h₂, curate_curate, ih]
    · have h₁ : contigs_trim_and_rename (r :: rs) min_len =
          contigs_trim_and_rename rs min_len := by
        simp only [contigs_trim_and_rename, List.filterMap_cons, if_neg h]
      rw [h₁, ih]

/-! ### Filtered-read reclassification (C6, C9) -/

theorem step_deleted (out s : Str) (acc : RefactorResult) (f : Str) :
    (refactor_step out s acc f).deleted =
      if isSingletonFile f then acc.deleted ++ [f] else acc.deleted := by
  by_cases h₁ : chars "prinseq" <:+: f <;> by_cases h₂ : chars "singletons" <:+: f <;>
    simp [refactor_step, isSingletonFile, h₁, h₂]

theorem step_moved (out s : Str) (acc : RefactorResult) (f : Str) :
    (refactor_step out s acc f).moved =
      if isMovedFile f then acc.moved ++ [(f, out ++ '/' :: s)] else acc.moved := by
  by_cases h₁ : chars "prinseq" <:+: f <;> by_cases h₂ : chars "singletons" <:+: f <;>
    simp [refactor_step, isMovedFile, h₁, h₂]

theorem step_r1 (out s : Str) (acc : RefactorResult) (f : Str) :
    (refactor_step out s acc f).r1 =
      if isMovedFile f ∧ r1Tag s <+: f then some f else acc.r1 := by
  by_cases h₁ : chars "prinseq" <:+: f <;> by_cases h₂ : chars "singletons" <:+: f <;>
    by_cases h₃ : r1Tag s <+: f <;>
    simp [refactor_step, isMovedFile, h₁, h₂, h₃]

theorem step_r2 (out s : Str) (acc : RefactorResult) (f : Str) :
    (refactor_step out s acc f).r2 =
      if isMovedFile f ∧ ¬ r1Tag s <+: f ∧ r2Tag s <+: f then some f else acc.r2 := by
  by_cases h₁ : chars "prinseq" <:+: f <;> by_cases h₂ : chars "singletons" <:+: f <;>
    by_cases h₃ : r1Tag s <+: f <;> by_cases h₄ : r2Tag s <+: f <;>
    simp [refactor_step, isMovedFile, h₁, h₂, h₃, h₄]

theorem refactor_deleted (out s : Str) (files : List Str) (acc : RefactorResult) :
    (files.foldl (refactor_step out s) acc).deleted =
      acc.deleted ++ files.filter (fun f => decide (isSingletonFile f)) := by
  induction files generalizing acc with
  | nil => simp
  | cons f fs ih =>
    rw [List.foldl_cons, ih, step_deleted, List.filter_cons]
    by_cases h : isSingletonFile f <;> simp [h]

theorem refactor_moved (out s : Str) (files : List Str) (acc : RefactorResult) :
    (files.foldl (refactor_step out s) acc).moved =
      acc.moved ++ (files.filter (fun f => decide (isMovedFile f))).map
        (fun f => (f, out ++ '/' :: s)) := by
  induction files generalizing acc with
  | nil => simp
  | cons f fs ih =>
    rw [List.foldl_cons, ih, step_moved, List.filter_cons]
    by_cases h : isMovedFile f <;> simp [h]

theorem refactor_r1_isSome (out s : Str) (files : List Str) (acc : RefactorResult) :
    (files.foldl (refactor_step out s) acc).r1.isSome = true ↔
      (∃ f ∈ files, isMovedFile f ∧ r1Tag s <+: f) ∨ acc.r1.isSome = true := by
  induction files generalizing acc with
  | nil => simp
  | cons f fs ih =>
    rw [List.foldl_cons, ih, step_r1]
    by_cases h : isMovedFile f ∧ r1Tag s <+: f <;> simp [h]

theorem refactor_r2_isSome (out s : Str) (files : List Str) (acc : RefactorResult) :
    (files.foldl (refactor_step out s) acc).r2.isSome = true ↔
      (∃ f ∈ files, isMovedFile f ∧ ¬ r1Tag s <+: f ∧ r2Tag s <+: f) ∨
        acc.r2.isSome = true := by
  induction files generalizing acc with
  | nil => simp
  | cons f fs ih =>
    rw [List.foldl_cons, ih, step_r2]
    by_cases h : isMovedFile f ∧ ¬ r1Tag s <+: f ∧ r2Tag s <+: f <;> simp [h]

theorem refactor_r1_spec (out s : Str) (files : List Str) (acc : RefactorResult)
    (x : Str) (h : (files.foldl (refactor_step out s) acc).r1 = some x) :
    (isMovedFile x ∧ r1Tag s <+: x) ∨ acc.r1 = some x := by
  induction files generalizing acc with
  | nil => exact Or.inr h
  | cons f fs ih =>
    rw [List.foldl_cons] at h
    rcases ih (refactor_step out s acc f) h with h' | h'
    · exact Or.inl h'
    · rw [step_r1] at h'
      by_cases hc : isMovedFile f ∧ r1Tag s <+: f
      · rw [if_pos hc] at h'
        exact Or.inl (Option.some_inj.mp h' ▸ hc)
      · rw [if_neg hc] at h'
        exact Or.inr h'

theorem refactor_r2_spec (out s : Str) (files : List Str) (acc : RefactorResult)
    (x : Str) (h : (files.foldl (refactor_step out s) acc).r2 = some x) :
    (isMovedFile x ∧ ¬ r1Tag s <+: x ∧ r2Tag s <+: x) ∨ acc.r2 = some x := by
  induction files generalizing acc with
  | nil => exact Or.inr h
  | cons f fs ih =>
    rw [List.foldl_cons] at h
    rcases ih (refactor_step out s acc f) h with h' | h'
    · exact Or.inl h'
    · rw [step_r2] at h'
      by_cases hc : isMovedFile f ∧ ¬ r1Tag s <+: f ∧ r2Tag s <+: f
      · rw [if_pos hc] at h'
        exact Or.inl (Option.some_inj.mp h' ▸ hc)
      · rw [if_neg hc] at h'
        exact Or.inr h'

theorem r1Tag_r2Tag_clash {s f : Str} (h₁ : r1Tag s <+: f) (h₂ : r2Tag s <+: f) :
    False := by
  have hlen : (r1Tag s).length = (r2Tag s).length := by
    simp [r1Tag, r2Tag, chars]
  have hle : (r1Tag s).length ≤ (r2Tag s).length := le_of_eq hlen
  have hpre : r1Tag s <+: r2Tag s := List.prefix_of_prefix_length_le h₁ h₂ hle
  have heq : r1Tag s = r2Tag s := List.IsPrefix.eq_of_length hpre hlen
  have : chars "_R1" = chars "_R2" := List.append_cancel_left heq
  exact absurd this (by decide)

/-- Claim C6: reclassification deletes every walked file whose name contains
both "prinseq" and "singletons", moves every other "prinseq" file into the
sample's destination directory, and returns a role map holding exactly the
roles actually found, keyed R1/R2 by whether the name starts with the sample
id followed by "_R1"/"_R2"; on the three example files for sample "S1" the
map sends R1 to the first file and R2 to the second, and the singleton file
is deleted. -/
theorem C6_refactor_roles :
    (∀ (files : List Str) (out s f : Str), f ∈ files → isSingletonFile f →
      f ∈ (refactor_prinseq_output files out s).deleted) ∧
    (∀ (files : List Str) (out s f : Str), f ∈ files → isMovedFile f →
      (f, out ++ '/' :: s) ∈ (refactor_prinseq_output files out s).moved) ∧
    (∀ (files : List Str) (out s : Str),
      ((refactor_prinseq_output files out s).r1.isSome = true ↔
        ∃ f ∈ files, isMovedFile f ∧ r1Tag s <+: f) ∧
      ((refactor_prinseq_output files out s).r2.isSome = true ↔
        ∃ f ∈ files, isMovedFile f ∧ r2Tag s <+: f)) ∧
    refactor_prinseq_output
        [chars "S1_R1_paired.prinseq.fastq", chars "S1_R2_paired.prinseq.fastq",
         chars "S1_R1_singletons.prinseq.fastq"]
        (chars "OUT/Prinseq_filtering2") (chars "S1") =
      ⟨[chars "S1_R1_singletons.prinseq.fastq"],
       [(chars "S1_R1_paired.prinseq.fastq",
         chars "OUT/Prinseq_filtering2" ++ '/' :: chars "S1"),
        (chars "S1_R2_paired.prinseq.fastq",
         chars "OUT/Prinseq_filtering2" ++ '/' :: chars "S1")],
       some (chars "S1_R1_paired.prinseq.fastq"),
       some (chars "S1_R2_paired.prinseq.fastq")⟩ := by
  refine ⟨?_, ?_, ?_, by decide⟩
  · intro files out s f hf hs
    rw [refactor_prinseq_output, refactor_deleted]
    simp only [List.nil_append, List.mem_filter]
    exact ⟨hf, decide_eq_true hs⟩
  · intro files out s f hf hm
    rw [refactor_prinseq_output, refactor_moved]
    simp only [List.nil_append, List.mem_map]
    exact ⟨f, List.mem_filter.mpr ⟨hf, decide_eq_true hm⟩, rfl⟩
  · intro files out s
    constructor
    · rw [refactor_prinseq_output, refactor_r1_isSome]
      simp
    · rw [refactor_prinseq_output, refactor_r2_isSome]
      simp only [Option.isSome_none, Bool.false_eq_true, or_false]
      constructor
      · rintro ⟨f, hf, hm, _, h2⟩
        exact ⟨f, hf, hm, h2⟩
      · rintro ⟨f, hf, hm, h2⟩
        exact ⟨f, hf, hm, fun h1 => r1Tag_r2Tag_clash h1 h2, h2⟩

/-- Witness for C6: the move guarantee applied to a concrete one-file walk. -/
theorem C6_refactor_roles_witness :
    (chars "S1_R1_paired.prinseq.fastq", chars "OUT" ++ '/' :: chars "S1") ∈
      (refactor_prinseq_output [chars "S1_R1_paired.prinseq.fastq"]
        (chars "OUT") (chars "S1")).moved :=
  C6_refactor_roles.2.1 _ _ _ _ (List.mem_singleton_self _) (by decide)

/-- Claim C9: the walk moves every non-singleton "prinseq" file into the
current sample's destination directory whatever sample the file belongs to
— the sample-prefix test only decides which files are recorded in the role
map (and deletes singleton files likewise regardless of sample); a recorded
role always carries the sample prefix, and a foreign file
"S2_R1_paired.prinseq.fastq" is moved into S1's directory yet recorded
under no role. -/
theorem C9_prefix_restricts_recording_not_moving :
    (∀ (files : List Str) (out s f : Str), f ∈ files → isMovedFile f →
      (f, out ++ '/' :: s) ∈ (refactor_prinseq_output files out s).moved) ∧
    (∀ (files : List Str) (out s f : Str), f ∈ files → isSingletonFile f →
      f ∈ (refactor_prinseq_output files out s).deleted) ∧
    (∀ (files : List Str) (out s x : Str),
      (refactor_prinseq_output files out s).r1 = some x → r1Tag s <+: x) ∧
    (∀ (files : List Str) (out s x : Str),
      (refactor_prinseq_output files out s).r2 = some x → r2Tag s <+: x) ∧
    refactor_prinseq_output [chars "S2_R1_paired.prinseq.fastq"]
        (chars "OUT/Prinseq_filtering2") (chars "S1") =
      ⟨[], [(chars "S2_R1_paired.prinseq.fastq",
             chars "OUT/Prinseq_filtering2" ++ '/' :: chars "S1")], none, none⟩ := by
  refine ⟨?_, ?_, ?_, ?_, by decide⟩
  · intro files out s f hf hm
    rw [refactor_prinseq_output, refactor_moved]
    simp only [List.nil_append, List.mem_map]
    exact ⟨f, List.mem_filter.mpr ⟨hf, decide_eq_true hm⟩, rfl⟩
  · intro files out s f hf hs
    rw [refactor_prinseq_output, refactor_deleted]
    simp only [List.nil_append, List.mem_filter]
    exact ⟨hf, decide_eq_true hs⟩
  · intro files out s x h
    rcases refactor_r1_spec out s files _ x h with h' | h'
    · exact h'.2
    · cases h'
  · intro files out s x h
    rcases refactor_r2_spec out s files _ x h with h' | h'
    · exact h'.2.2
    · cases h'

/-- Witness for C9: the move guarantee applied to a file of another sample. -/
theorem C9_prefix_restricts_recording_not_moving_witness :
    (chars "S2_R1_paired.prinseq.fastq", chars "OUT" ++ '/' :: chars "S1") ∈
      (refactor_prinseq_output [chars "S2_R1_paired.prinseq.fastq"]
        (chars "OUT") (chars "S1")).moved :=
  C9_prefix_restricts_recording_not_moving.1 _ _ _ _
    (List.mem_singleton_self _) (by decide)

/-! ### Blast post-processing (C4, C5, C7, C10) -/

theorem enrich_spec {db : Str → Option Nat} {r : BlastRow} {e : EnrichedRow}
    (h : enrich db r = some e) :
    db e.qid = some e.queryLength ∧
      e.proteinCover =
        ((e.qend : ℚ) - (e.qstart : ℚ) + 1) / (e.queryLength : ℚ) * 100 ∧
      e.core = r := by
  rw [enrich, Option.map_eq_some'] at h
  obtain ⟨ql, hql, he⟩ := h
  cases r
  subst he
  exact ⟨hql, rfl, rfl⟩

theorem enrichAll_some_of {db : Str → Option Nat} {l : List BlastRow}
    (h : ∀ r ∈ l, (db r.qid).isSome = true) : (enrichAll db l).isSome = true := by
  induction l with
  | nil => rfl
  | cons r rs ih =>
    obtain ⟨ql, hql⟩ := Option.isSome_iff_exists.mp (h r (List.mem_cons_self r rs))
    obtain ⟨es, hes⟩ :=
      Option.isSome_iff_exists.mp (ih fun x hx => h x (List.mem_cons_of_mem r hx))
    simp [enrichAll, enrich, hql, hes]

theorem enrichAll_map_core {db : Str → Option Nat} {l : List BlastRow}
    {es : List EnrichedRow} (h : enrichAll db l = some es) :
    es.map EnrichedRow.core = l := by
  induction l generalizing es with
  | nil =>
    simp only [enrichAll, Option.some_inj] at h
    subst h; rfl
  | cons r rs ih =>
    simp only [enrichAll, Option.bind_eq_some, Option.map_eq_some'] at h
    obtain ⟨e, he, es', hes', heq⟩ := h
    subst heq
    simp [ih hes', (enrich_spec he).2.2]

theorem enrichAll_none_of {db : Str → Option Nat} {l : List BlastRow} {r : BlastRow}
    (hr : r ∈ l) (h : db r.qid = none) : enrichAll db l = none := by
  induction l with
  | nil => cases hr
  | cons x xs ih =>
    rcases List.mem_cons.mp hr with heq | hr'
    · subst heq; simp [enrichAll, enrich, h]
    · rw [enrichAll, ih hr']
      cases enrich db x <;> rfl

theorem enrichAll_mem {db : Str → Option Nat} {l : List BlastRow}
    {es : List EnrichedRow} {e : EnrichedRow} (h : enrichAll db l = some es)
    (he : e ∈ es) : ∃ r ∈ l, enrich db r = some e := by
  induction l generalizing es with
  | nil =>
    simp only [enrichAll, Option.some_inj] at h
    subst h; cases he
  | cons r rs ih =>
    simp only [enrichAll, Option.bind_eq_some, Option.map_eq_some'] at h
    obtain ⟨e', he', es', hes', heq⟩ := h
    subst heq
    rcases List.mem_cons.mp he with heq | hm
    · subst heq; exact ⟨r, List.mem_cons_self r rs, he'⟩
    · obtain ⟨r', hr', henr⟩ := ih hes' hm
      exact ⟨r', List.mem_cons_of_mem r hr', henr⟩

/-- Claim C4: in blast post-processing every row with percent identity at
most 50 is discarded and every row strictly above 50 is retained (exactly 50
is dropped, 50.01 is kept), and the filtering happens before the derived
columns are computed — the reference database is consulted only for
surviving rows, so the surviving rows of a successful run are exactly the
rows strictly above the threshold, in order. -/
theorem C4_identity_threshold :
    (∀ (rows : List BlastRow) (db : Str → Option Nat) (folder : Str),
      (∀ r ∈ rows, 50 < r.pident → (db r.qid).isSome = true) →
      ∃ out, blast_postprocessing rows db folder = some out ∧
        out.rows.map EnrichedRow.core = rows.filter fun r => decide (50 < r.pident)) ∧
    (∀ (rows : List BlastRow) (db : Str → Option Nat) (folder : Str)
      (out : BlastOutput), blast_postprocessing rows db folder = some out →
      ∀ e ∈ out.rows, 50 < e.pident) ∧
    (blast_postprocessing
        [⟨chars "q0", chars "s0", 50, 100, 0, 0, 1, 150, 1, 450, 0, 0, []⟩]
        (fun _ => none) (chars "OUT") =
      some ⟨chars "OUT" ++ chars "/BLASToutput_VF_custom_edited.txt",
            edited_headers, []⟩) ∧
    (∃ out, blast_postprocessing
        [⟨chars "p1", chars "s0", 5001/100, 100, 0, 0, 1, 150, 1, 450, 0, 0, []⟩]
        (fun q => if q = chars "p1" then some 150 else none) (chars "OUT") =
          some out ∧ out.rows.length = 1) := by
  refine ⟨?_, ?_, ?_, ?_⟩
  · intro rows db folder h
    have hall : ∀ r ∈ rows.filter (fun r => decide (50 < r.pident)),
        (db r.qid).isSome = true := fun r hr =>
      h r (List.mem_filter.mp hr).1 (of_decide_eq_true (List.mem_filter.mp hr).2)
    obtain ⟨es, hes⟩ := Option.isSome_iff_exists.mp (enrichAll_some_of hall)
    refine ⟨_, by rw [blast_postprocessing, hes]; rfl, ?_⟩
    exact enrichAll_map_core hes
  · intro rows db folder out hout e he
    rw [blast_postprocessing, Option.map_eq_some'] at hout
    obtain ⟨es, hes, heq⟩ := hout
    subst heq
    obtain ⟨r, hr, henr⟩ := enrichAll_mem hes he
    have hp := of_decide_eq_true (List.mem_filter.mp hr).2
    have hcore := (enrich_spec henr).2.2
    have : e.pident = r.pident := by rw [← hcore]; rfl
    rw [this]
    exact hp
  · have hfil : List.filter (fun r => decide (50 < r.pident))
        [(⟨chars "q0", chars "s0", 50, 100, 0, 0, 1, 150, 1, 450, 0, 0, []⟩ :
          BlastRow)] = [] := by
      simp [List.filter_cons, lt_irrefl]
    rw [blast_postprocessing, hfil]
    rfl
  · have hlt : (50 : ℚ) < 5001 / 100 := by norm_num
    have hfil : List.filter (fun r => decide (50 < r.pident))
        [(⟨chars "p1", chars "s0", 5001/100, 100, 0, 0, 1, 150, 1, 450, 0, 0, []⟩ :
          BlastRow)] =
        [⟨chars "p1", chars "s0", 5001/100, 100, 0, 0, 1, 150, 1, 450, 0, 0, []⟩] := by
      simp [List.filter_cons, hlt]
    refine ⟨⟨chars "OUT" ++ chars "/BLASToutput_VF_custom_edited.txt", edited_headers,
      [⟨chars "p1", chars "s0", 150, 100, 5001/100, 100, 0, 0, 1, 150, 1, 450, 0, 0,
        []⟩]⟩, ?_, rfl⟩
    rw [blast_postprocessing, hfil]
    simp only [enrichAll, enrich]
    norm_num

/-- Witness for C4: the retained-rows characterization applied to a
singleton input whose only row survives. -/
theorem C4_identity_threshold_witness :
    ∃ out, blast_postprocessing
        [⟨chars "p1", chars "s0", 90, 100, 0, 0, 1, 150, 1, 450, 0, 0, []⟩]
        (fun _ => some 150) (chars "OUT") = some out ∧
      out.rows.map EnrichedRow.core =
        List.filter (fun r => decide (50 < r.pident))
          [⟨chars "p1", chars "s0", 90, 100, 0, 0, 1, 150, 1, 450, 0, 0, []⟩] :=
  C4_identity_threshold.1 _ _ _ (fun _ _ _ => rfl)

/-- Claim C5: for each surviving row the two derived columns are inserted
immediately after "subject id" (positions 2 and 3, before "alignment
length" at position 5), the query length is the database length of the
query id, and the protein coverage is
(query_end - query_start + 1) / query_length * 100; with query_start 1,
query_end 150 and length 150 the coverage is 100, with query_end 300 it is
200 — kept above 100, never clamped. -/
theorem C5_derived_columns :
    (edited_headers.indexOf "subject id" = 1 ∧
     edited_headers.indexOf "query length" = 2 ∧
     edited_headers.indexOf "protein cover %" = 3 ∧
     edited_headers.indexOf "alignment length" = 5) ∧
    (∀ (rows : List BlastRow) (db : Str → Option Nat) (folder : Str)
      (out : BlastOutput), blast_postprocessing rows db folder = some out →
      out.headers = edited_headers ∧
      ∀ e ∈ out.rows, db e.qid = some e.queryLength ∧
        e.proteinCover =
          ((e.qend : ℚ) - (e.qstart : ℚ) + 1) / (e.queryLength : ℚ) * 100) ∧
    (∃ out, blast_postprocessing
        [⟨chars "p1", chars "s0", 90, 100, 0, 0, 1, 150, 1, 450, 0, 0, []⟩]
        (fun q => if q = chars "p1" then some 150 else none) (chars "OUT") =
          some out ∧ out.rows.map (fun e => e.proteinCover) = [100]) ∧
    (∃ out, blast_postprocessing
        [⟨chars "p1", chars "s0", 90, 100, 0, 0, 1, 300, 1, 450, 0, 0, []⟩]
        (fun q => if q = chars "p1" then some 150 else none) (chars "OUT") =
          some out ∧ out.rows.map (fun e => e.proteinCover) = [200] ∧
          ∀ e ∈ out.rows, (100 : ℚ) < e.proteinCover) := by
  refine ⟨by decide, ?_, ?_, ?_⟩
  · intro rows db folder out hout
    rw [blast_postprocessing, Option.map_eq_some'] at hout
    obtain ⟨es, hes, heq⟩ := hout
    subst heq
    refine ⟨rfl, fun e he => ?_⟩
    obtain ⟨r, _, henr⟩ := enrichAll_mem hes he
    exact ⟨(enrich_spec henr).1, (enrich_spec henr).2.1⟩
  · have hlt : (50 : ℚ) < 90 := by norm_num
    have hfil : List.filter (fun r => decide (50 < r.pident))
        [(⟨chars "p1", chars "s0", 90, 100, 0, 0, 1, 150, 1, 450, 0, 0, []⟩ :
          BlastRow)] =
        [⟨chars "p1", chars "s0", 90, 100, 0, 0, 1, 150, 1, 450, 0, 0, []⟩] := by
      simp [List.filter_cons, hlt]
    refine ⟨⟨chars "OUT" ++ chars "/BLASToutput_VF_custom_edited.txt", edited_headers,
      [⟨chars "p1", chars "s0", 150, 100, 90, 100, 0, 0, 1, 150, 1, 450, 0, 0, []⟩]⟩,
      ?_, by simp⟩
    rw [blast_postprocessing, hfil]
    simp only [enrichAll, enrich]
    norm_num
  · have hlt : (50 : ℚ) < 90 := by norm_num
    have hfil : List.filter (fun r => decide (50 < r.pident))
        [(⟨chars "p1", chars "s0", 90, 100, 0, 0, 1, 300, 1, 450, 0, 0, []⟩ :
          BlastRow)] =
        [⟨chars "p1", chars "s0", 90, 100, 0, 0, 1, 300, 1, 450, 0, 0, []⟩] := by
      simp [List.filter_cons, hlt]
    refine ⟨⟨chars "OUT" ++ chars "/BLASToutput_VF_custom_edited.txt", edited_headers,
      [⟨chars "p1", chars "s0", 150, 200, 90, 100, 0, 0, 1, 300, 1, 450, 0, 0, []⟩]⟩,
      ?_, by simp, ?_⟩
    · rw [blast_postprocessing, hfil]
      simp only [enrichAll, enrich]
      norm_num
    · intro e he
      rcases List.mem_singleton.mp he with rfl
      norm_num

/-- Witness for C5: the per-row guarantee applied to a concrete run. -/
theorem C5_derived_columns_witness :
    (⟨chars "OUT" ++ chars "/BLASToutput_VF_custom_edited.txt",
      edited_headers, []⟩ : BlastOutput).headers = edited_headers ∧
    ∀ e ∈ (⟨chars "OUT" ++ chars "/BLASToutput_VF_custom_edited.txt",
      edited_headers, []⟩ : BlastOutput).rows,
      (fun _ : Str => (none : Option Nat)) e.qid = some e.queryLength ∧
        e.proteinCover =
          ((e.qend : ℚ) - (e.qstart : ℚ) + 1) / (e.queryLength : ℚ) * 100 :=
  C5_derived_columns.2.1 [] (fun _ => none) (chars "OUT") _ rfl

/-- Claim C7: if a surviving row's query id is absent from the reference
protein database, post-processing fails before writing: the whole run
aborts (KeyError) and no output value is produced at all. -/
theorem C7_missing_query_id_fatal (rows : List BlastRow) (db : Str → Option Nat)
    (folder : Str) (h : ∃ r ∈ rows, 50 < r.pident ∧ db r.qid = none) :
    blast_postprocessing rows db folder = none := by
  obtain ⟨r, hr, hp, hdb⟩ := h
  have hrf : r ∈ rows.filter (fun r => decide (50 < r.pident)) :=
    List.mem_filter.mpr ⟨hr, decide_eq_true hp⟩
  rw [blast_postprocessing, enrichAll_none_of hrf hdb]
  rfl

/-- Witness for C7: a surviving row with an unknown query id makes the
post-processing produce nothing. -/
theorem C7_missing_query_id_fatal_witness :
    blast_postprocessing
        [⟨chars "p1", chars "s0", 90, 100, 0, 0, 1, 150, 1, 450, 0, 0, []⟩]
        (fun _ => none) (chars "OUT") = none :=
  C7_missing_query_id_fatal _ _ _
    ⟨_, List.mem_singleton_self _, by norm_num, rfl⟩

/-- Claim C10: when every input row has percent identity at most 50 —
including an input with no rows at all — post-processing still succeeds,
producing the table at the fixed filename with only the header row, the two
derived columns present among the headers. -/
theorem C10_all_filtered_not_an_error (rows : List BlastRow)
    (db : Str → Option Nat) (folder : Str) (h : ∀ r ∈ rows, r.pident ≤ 50) :
    blast_postprocessing rows db folder =
      some ⟨folder ++ chars "/BLASToutput_VF_custom_edited.txt",
            edited_headers, []⟩ ∧
    "query length" ∈ edited_headers ∧ "protein cover %" ∈ edited_headers := by
  have hf : rows.filter (fun r => decide (50 < r.pident)) = [] := by
    rw [List.filter_eq_nil_iff]
    intro r hr
    simpa using not_lt.mpr (h r hr)
  rw [blast_postprocessing, hf]
  exact ⟨rfl, by decide, by decide⟩

/-- Witness for C10: a one-row input at exactly the threshold yields the
header-only output. -/
theorem C10_all_filtered_not_an_error_witness :
    blast_postprocessing
        [⟨chars "q0", chars "s0", 50, 100, 0, 0, 1, 150, 1, 450, 0, 0, []⟩]
        (fun _ => none) (chars "OUT") =
      some ⟨chars "OUT" ++ chars "/BLASToutput_VF_custom_edited.txt",
            edited_headers, []⟩ ∧
    "query length" ∈ edited_headers ∧ "protein cover %" ∈ edited_headers :=
  C10_all_filtered_not_an_error _ (fun _ => none) _
    (fun r hr => by
      rcases List.mem_singleton.mp hr with rfl
      norm_num)

/-! ### Per-sample chain and exit codes (C1) -/

/-- Counterexample to claim C1 as stated: in the run environment where every
external tool exits with status 1 (while the role map holds both reads and
the contigs file is readable), the trimming stage fails with a non-zero
exit code, yet filtering, assembly, curation, statistics and annotation all
still execute and the loop body runs to completion — the orchestrator never
inspects any exit status, so there is silent continuation past the failed
stage. -/
theorem C1_counterexample :
    (SampleEnv.mk (fun _ => 1) true true true).exitCode Stage.trimming ≠ 0 ∧
    (sampleChain ⟨fun _ => 1, true, true, true⟩).executed =
      [Stage.trimming, Stage.filtering, Stage.assembly, Stage.curation,
       Stage.statistics, Stage.annotate] ∧
    (sampleChain ⟨fun _ => 1, true, true, true⟩).completed = true :=
  ⟨by decide, rfl, rfl⟩

/-- Claim C1 (amended): the orchestrator ignores stage exit codes — a
non-zero exit from any external stage does not stop the sample's chain, and
every stage of the chain still executes, whatever exit codes the tools
return; the chain stops early only through uncaught exceptions (a role
missing from the filtered-read map before assembly, or contig curation
unable to read its input), not through any exit-code check. -/
theorem C1_amended_exit_codes_ignored (env : SampleEnv)
    (h₁ : env.hasR1 = true) (h₂ : env.hasR2 = true) (h₃ : env.curationOk = true) :
    (sampleChain env).executed =
      [Stage.trimming, Stage.filtering, Stage.assembly, Stage.curation,
       Stage.statistics, Stage.annotate] ∧
    (sampleChain env).completed = true := by
  rw [sampleChain]
  rw [h₁, h₂, h₃]
  exact ⟨rfl, rfl⟩

/-- Witness for the amended C1: all six stages execute even when every tool
reports failure. -/
theorem C1_amended_exit_codes_ignored_witness :
    (sampleChain ⟨fun _ => 1, true, true, true⟩).executed =
      [Stage.trimming, Stage.filtering, Stage.assembly, Stage.curation,
       Stage.statistics, Stage.annotate] ∧
    (sampleChain ⟨fun _ => 1, true, true, true⟩).completed = true :=
  C1_amended_exit_codes_ignored ⟨fun _ => 1, true, true, true⟩ rfl rfl rfl

end Wombat
